import Mathlib

/-!
Verification of the audulus/collector mark-sweep garbage collector
(Collector.hpp / Collector.cpp) via a shallow embedding.

Managed objects are identified by natural numbers (standing for the
C++ Collectable pointers).  The collector mirror (per-object edge
lists, root counts, visitation stamps, the registry set of nodes, the
sequence counter, the dirty flag, the event queue and the per-thread
in-GC flags) is embedded as an explicit state record.  Assertions in
the C++ code (assert in _ProcessEvents) are modelled by returning
none; destruction (delete in the sweep) is recorded in a ghost log of
destroyed object ids.
-/

set_option autoImplicit false

namespace Collector

/-- Fields of class Collectable owned by the collector:
gcConnections, gcRootCount (a C++ int) and gcSequence. -/
structure Collectable where
  gcConnections : List Nat
  gcRootCount : Int
  gcSequence : Nat
deriving DecidableEq, Repr

/-- State of a freshly constructed Collectable:
gcRootCount(0), gcSequence(0), empty connection list. -/
def Collectable.init : Collectable := ⟨[], 0, 0⟩

/-- The object heap: a finite association from object ids to their
collector-owned fields.  An id absent from the list denotes an object
in its freshly constructed state. -/
abbrev Heap := List (Nat × Collectable)

/-- Read the collector-owned fields of object i (first entry wins). -/
def lookupC : Heap → Nat → Collectable
  | [], _ => Collectable.init
  | (j, c) :: t, i => if i = j then c else lookupC t i

/-- Update the collector-owned fields of object i in place, creating
the entry if the object has not been touched before. -/
def updateC (f : Collectable → Collectable) : Heap → Nat → Heap
  | [], i => [(i, f Collectable.init)]
  | (j, c) :: t, i => if i = j then (j, f c) :: t else (j, c) :: updateC f t i

/-- Event records pushed by the handles onto the lock-free queue
(struct Collector::Event). -/
inductive Event where
  | AddRoot (a : Nat)
  | RemoveRoot (a : Nat)
  | Connect (a b : Nat)
  | Disconnect (a b : Nat)
deriving DecidableEq, Repr

/-- The collector state: the mirror protected by _mutex plus the event
queue, a ghost log of deleted object ids, and the per-thread _inGC
flags indexed by thread id. -/
structure CState where
  heap : Heap
  nodes : List Nat
  sequence : Nat
  graphChanged : Bool
  queue : List Event
  destroyed : List Nat
  inGC : Nat → Bool

/-- Initial collector state (Collector constructor: _sequence(0),
_graphChanged(false); thread-local flags default to false). -/
def initState : CState :=
  { heap := [], nodes := [], sequence := 0, graphChanged := false,
    queue := [], destroyed := [], inGC := fun _ => false }

/-- Insertion into _nodes (a std::set ordered by pointer value,
mirrored as an ascending duplicate-free list of ids). -/
def insertNode (a : Nat) : List Nat → List Nat
  | [] => [a]
  | b :: t => if a < b then a :: b :: t else if a = b then b :: t else b :: insertNode a t

/-- The std::find / erase pair used by the Disconnect case: remove the
first occurrence of b, or fail when absent (the assert). -/
def removeFirst (b : Nat) : List Nat → Option (List Nat)
  | [] => none
  | x :: t => if x = b then some t else (removeFirst b t).map (x :: ·)

/-- One iteration of the switch in Collector::_ProcessEvents.  The
asserts (root count must stay nonnegative after RemoveRoot; the
connection must exist for Disconnect) abort, modelled as none. -/
def applyEvent (s : CState) (e : Event) : Option CState :=
  match e with
  | .AddRoot a =>
      some { s with nodes := insertNode a s.nodes,
                    heap := updateC (fun c => { c with gcRootCount := c.gcRootCount + 1 }) s.heap a }
  | .RemoveRoot a =>
      if (lookupC s.heap a).gcRootCount - 1 < 0 then none
      else some { s with heap := updateC (fun c => { c with gcRootCount := c.gcRootCount - 1 }) s.heap a }
  | .Connect a b =>
      some { s with heap := updateC (fun c => { c with gcConnections := c.gcConnections ++ [b] }) s.heap a }
  | .Disconnect a b =>
      match removeFirst b (lookupC s.heap a).gcConnections with
      | none => none
      | some adj => some { s with heap := updateC (fun c => { c with gcConnections := adj }) s.heap a }

/-- The pop loop of Collector::_ProcessEvents: each popped event sets
_graphChanged before being applied. -/
def procList : CState → List Event → Option CState
  | s, [] => some s
  | s, e :: rest =>
      match applyEvent { s with graphChanged := true } e with
      | none => none
      | some s1 => procList s1 rest

/-- Collector::ProcessEvents: take the mirror lock and drain the whole
queue into the mirror. -/
def ProcessEvents (s : CState) : Option CState :=
  procList { s with queue := [] } s.queue

/-- Mutator-side event production (Collector::_PushEvent; the bounded
queue retries until the push succeeds, so a push always lands). -/
def enqueueAll (s : CState) (E : List Event) : CState :=
  { s with queue := s.queue ++ E }

/-- Write the thread-local _inGC flag of one thread. -/
def setInGC (tid : Nat) (v : Bool) (s : CState) : CState :=
  { s with inGC := fun t => if t = tid then v else s.inGC t }

/-- Collector::InGC: read the calling threads _inGC flag (lazily
initialised to false, so absent means false). -/
def InGC (tid : Nat) (s : CState) : Bool := s.inGC tid

/-- Entry of Collector::Collect on thread tid: the worker sets its
thread-local _inGC flag to true before draining any event. -/
def collectEnter (tid : Nat) (s : CState) : CState := setInGC tid true s

/-- Seeds of the trace: the registered nodes whose gcRootCount is
nonzero, in registry iteration order (the root loop in Collect). -/
def rootSeeds (s : CState) : List Nat :=
  s.nodes.filter (fun id => (lookupC s.heap id).gcRootCount ≠ 0)

/-- Stamp object x with the current trace sequence number
(node.gcSequence = _sequence in the mark loop). -/
def setSeq (seq : Nat) (h : Heap) (x : Nat) : Heap :=
  updateC (fun c => { c with gcSequence := seq }) h x

/-- Total size of the entries not yet stamped with seq; together with
the stack length this bounds the number of mark-loop iterations. -/
def weight (seq : Nat) : Heap → Nat
  | [] => 0
  | (_, c) :: t => (if c.gcSequence ≠ seq then 1 + c.gcConnections.length else 0) + weight seq t

/-- The mark loop of Collector::Collect: pop a node from the stack; if
its stamp is not the current sequence, stamp it and push its
connections (in order, so the last connection is popped first).  The
fuel argument makes the loop structurally recursive; Collect passes
enough fuel for the loop to run to completion, mirroring the C++
while loop, whose termination measure is the same quantity. -/
def markLoop (seq : Nat) : Nat → Heap → List Nat → Heap
  | 0, h, _ => h
  | _ + 1, h, [] => h
  | fuel + 1, h, x :: rest =>
      let c := lookupC h x
      if c.gcSequence ≠ seq then
        markLoop seq fuel (setSeq seq h x) (c.gcConnections.reverse ++ rest)
      else
        markLoop seq fuel h rest

/-- Fuel sufficient for the mark loop to drain its stack. -/
def markFuel (seq : Nat) (h : Heap) (st : List Nat) : Nat :=
  st.length + weight seq h

/-- The trace part of Collector::Collect, run only when the graph is
dirty: advance the sequence counter, seed the stack with the rooted
nodes (the registry is iterated in ascending order and the stack pops
from the back), and mark. -/
def markPhase (s : CState) : CState :=
  if s.graphChanged then
    let seq := s.sequence + 1
    let stack := (rootSeeds s).reverse
    { s with sequence := seq,
             heap := markLoop seq (markFuel seq s.heap stack) s.heap stack }
  else s

/-- The sweep part of Collector::Collect, run only when the graph is
dirty: delete every registered node whose stamp is not the current
sequence, keep the others, and clear the dirty flag. -/
def sweepPhase (s : CState) : CState :=
  if s.graphChanged then
    let alive := s.nodes.filter (fun id => (lookupC s.heap id).gcSequence = s.sequence)
    let dead := s.nodes.filter (fun id => ¬ (lookupC s.heap id).gcSequence = s.sequence)
    { s with nodes := alive, destroyed := s.destroyed ++ dead, graphChanged := false }
  else s

/-- Collector::Collect on thread tid: take the lock, raise the
thread-local in-GC flag, drain pending events, trace and sweep when
dirty, and lower the flag on the way out. -/
def Collect (tid : Nat) (s : CState) : Option CState :=
  (ProcessEvents (collectEnter tid s)).map
    (fun s2 => setInGC tid false (sweepPhase (markPhase s2)))

/-- Events emitted by the RootPtr constructor from a raw pointer
(_Retain: AddRoot when the target is non-null). -/
def rootPtrCtorEvents (target : Option Nat) : List Event :=
  match target with
  | some t => [.AddRoot t]
  | none => []

/-- Events emitted by the EdgePtr destructor: nothing when the
thread-local in-GC flag is set, otherwise _Release, which emits
Disconnect(owner, target) when the target is non-null. -/
def edgePtrDtorEvents (inGC : Bool) (owner : Nat) (target : Option Nat) : List Event :=
  if inGC then []
  else
    match target with
    | some t => [.Disconnect owner t]
    | none => []

/-- Events emitted by EdgePtr(Collectable* owner, const RootPtr&):
the handle starts at the target of the root and calls _Retain, which
emits Connect(owner, target) when the target is non-null. -/
def edgeCtorFromRootEvents (owner : Nat) (target : Option Nat) : List Event :=
  match target with
  | some t => [.Connect owner t]
  | none => []

/-- Events emitted by copy-constructing an EdgePtr from another
EdgePtr.  EdgePtr declares no copy constructor, so C++ generates the
memberwise copy, which performs no Collector call at all. -/
def edgeCopyCtorEvents (_owner : Nat) (_target : Option Nat) : List Event := []

/-- Events emitted by EdgePtr assignment (operator= from an EdgePtr
with the same owner, or from a RootPtr): when the new target differs
from the current one, _Release emits Disconnect of the old non-null
target, then _Retain emits Connect of the new non-null target. -/
def edgeAssignEvents (owner : Nat) (cur nxt : Option Nat) : List Event :=
  if cur = nxt then []
  else
    (match cur with
      | some t => [.Disconnect owner t]
      | none => []) ++
    (match nxt with
      | some t => [.Connect owner t]
      | none => [])

/-- Operations of the driver loop: a mutator pushing one event, a call
to ProcessEvents, or a call to Collect on some thread. -/
inductive Op where
  | push (e : Event)
  | processEvents
  | collect (tid : Nat)
deriving DecidableEq

/-- Execute one operation. -/
def runOp (s : CState) : Op → Option CState
  | .push e => some { s with queue := s.queue ++ [e] }
  | .processEvents => ProcessEvents s
  | .collect tid => Collect tid s

/-- Execute a sequence of operations. -/
def run (s : CState) (ops : List Op) : Option CState :=
  ops.foldlM runOp s

/-- A sequence of ProcessEvents calls, each draining the events that
arrived since the previous call. -/
def runPE (s : CState) (chunks : List (List Event)) : Option CState :=
  chunks.foldlM (fun t c => ProcessEvents (enqueueAll t c)) s

/-- Example state: object 1 is registered and its mirrored edge list
holds a duplicated edge to 2 around one edge to 3. -/
def sD : CState :=
  { heap := [(1, ⟨[2, 3, 2], 0, 0⟩)], nodes := [1], sequence := 0,
    graphChanged := false, queue := [], destroyed := [], inGC := fun _ => false }

/-- Example state: objects 3 and 4 with root counts 0 and 2. -/
def s7 : CState :=
  { heap := [(3, ⟨[], 0, 0⟩), (4, ⟨[], 2, 0⟩)], nodes := [3, 4], sequence := 0,
    graphChanged := false, queue := [], destroyed := [], inGC := fun _ => false }

/-- The state s7 after replaying RemoveRoot(4). -/
def s7b : CState :=
  { heap := [(3, ⟨[], 0, 0⟩), (4, ⟨[], 1, 0⟩)], nodes := [3, 4], sequence := 0,
    graphChanged := false, queue := [], destroyed := [], inGC := fun _ => false }

/-- Example state for the sweep: 1 is rooted and points to 2; 2 is
registered, unrooted, and points back to 1; 5 is registered and
unreachable. -/
def sC1 : CState :=
  { heap := [(1, ⟨[2], 1, 0⟩), (2, ⟨[1], 0, 0⟩), (5, ⟨[], 0, 0⟩)],
    nodes := [1, 2, 5], sequence := 0, graphChanged := true,
    queue := [], destroyed := [], inGC := fun _ => false }

/-- Example driver run: root 1, connect 1 to 2, drain, unroot 1,
collect; object 2 is never named by an AddRoot. -/
def opsC10 : List Op :=
  [Op.push (.AddRoot 1), Op.push (.Connect 1 2), Op.processEvents,
   Op.push (.RemoveRoot 1), Op.collect 0]

/-- Example event batches for the batching and frame properties. -/
def chunksC8 : List (List Event) :=
  [[.AddRoot 1], [], [.Connect 1 2, .RemoveRoot 1], [.AddRoot 3]]

/-- Example event batches: root 1, then unroot it across a second
ProcessEvents call. -/
def chunksC9 : List (List Event) :=
  [[.AddRoot 1], [.RemoveRoot 1]]

/-- One mirrored edge: y occurs in the connection list of x. -/
def edgeRel (h : Heap) (x y : Nat) : Prop :=
  y ∈ (lookupC h x).gcConnections

/-- Reachability from a registered object with positive root count via
the mirrored edges. -/
def RootReachable (s : CState) (y : Nat) : Prop :=
  ∃ r, r ∈ s.nodes ∧ 0 < (lookupC s.heap r).gcRootCount ∧
    Relation.ReflTransGen (edgeRel s.heap) r y

/-- Object x carries the stamp seq. -/
def stamped (seq : Nat) (h : Heap) (x : Nat) : Prop :=
  (lookupC h x).gcSequence = seq

instance (seq : Nat) (h : Heap) (x : Nat) : Decidable (stamped seq h x) := by
  unfold stamped; infer_instance

/-! Lemmas about the heap association list. -/

theorem lookup_updateC (f : Collectable → Collectable) (h : Heap) (i y : Nat) :
    lookupC (updateC f h i) y = if y = i then f (lookupC h i) else lookupC h y := by
  induction h with
  | nil => by_cases hy : y = i <;> simp [updateC, lookupC, hy]
  | cons p t ih =>
      obtain ⟨j, c⟩ := p
      by_cases hij : i = j
      · subst hij
        by_cases hy : y = i <;> simp [updateC, lookupC, hy]
      · by_cases hy : y = j
        · subst hy
          simp [updateC, lookupC, hij, Ne.symm hij]
        · simp [updateC, lookupC, hij, hy, ih]

theorem lookupC_of_all (P : Collectable → Prop) (h : Heap) (x : Nat)
    (hall : ∀ p ∈ h, P p.2) (hinit : P Collectable.init) : P (lookupC h x) := by
  induction h with
  | nil => exact hinit
  | cons p t ih =>
      obtain ⟨j, c⟩ := p
      by_cases hx : x = j
      · simpa [lookupC, hx] using hall (j, c) (by simp)
      · simp only [lookupC, hx, if_false]
        exact ih (fun q hq => hall q (List.mem_cons_of_mem _ hq))

theorem lookup_setSeq (seq : Nat) (h : Heap) (x y : Nat) :
    lookupC (setSeq seq h x) y
      = if y = x then { lookupC h x with gcSequence := seq } else lookupC h y :=
  lookup_updateC _ h x y

theorem conns_setSeq (seq : Nat) (h : Heap) (x y : Nat) :
    (lookupC (setSeq seq h x) y).gcConnections = (lookupC h y).gcConnections := by
  rw [lookup_setSeq]
  by_cases hy : y = x <;> simp [hy]

theorem stamped_setSeq (seq : Nat) (h : Heap) (x y : Nat) :
    stamped seq (setSeq seq h x) y ↔ y = x ∨ stamped seq h y := by
  unfold stamped
  rw [lookup_setSeq]
  by_cases hy : y = x <;> simp [hy]

theorem weight_setSeq (seq : Nat) (h : Heap) (x : Nat)
    (hx : (lookupC h x).gcSequence ≠ seq) :
    weight seq (setSeq seq h x) + (lookupC h x).gcConnections.length ≤ weight seq h := by
  induction h with
  | nil => simp [setSeq, updateC, weight, lookupC, Collectable.init]
  | cons p t ih =>
      obtain ⟨j, c⟩ := p
      by_cases hj : x = j
      · subst hj
        have hc : c.gcSequence ≠ seq := by simpa [lookupC] using hx
        simp [setSeq, updateC, weight, lookupC, hc]
        omega
      · have hx' : (lookupC t x).gcSequence ≠ seq := by
          simpa [lookupC, hj] using hx
        have := ih hx'
        simp only [setSeq, updateC, if_neg (fun hh : x = j => hj hh), weight] at *
        simp only [lookupC, if_neg hj]
        omega

/-! Frame lemmas for event replay. -/

theorem applyEvent_queue (s s' : CState) (e : Event)
    (h : applyEvent s e = some s') : s'.queue = s.queue := by
  cases e with
  | AddRoot a => simp [applyEvent] at h; subst h; rfl
  | RemoveRoot a =>
      simp only [applyEvent] at h
      split at h
      · exact absurd h (by simp)
      · simp at h; subst h; rfl
  | Connect a b => simp [applyEvent] at h; subst h; rfl
  | Disconnect a b =>
      simp only [applyEvent] at h
      split at h
      · exact absurd h (by simp)
      · simp at h; subst h; rfl

theorem applyEvent_destroyed (s s' : CState) (e : Event)
    (h : applyEvent s e = some s') : s'.destroyed = s.destroyed := by
  cases e with
  | AddRoot a => simp [applyEvent] at h; subst h; rfl
  | RemoveRoot a =>
      simp only [applyEvent] at h
      split at h
      · exact absurd h (by simp)
      · simp at h; subst h; rfl
  | Connect a b => simp [applyEvent] at h; subst h; rfl
  | Disconnect a b =>
      simp only [applyEvent] at h
      split at h
      · exact absurd h (by simp)
      · simp at h; subst h; rfl

theorem applyEvent_inGC (s s' : CState) (e : Event)
    (h : applyEvent s e = some s') : s'.inGC = s.inGC := by
  cases e with
  | AddRoot a => simp [applyEvent] at h; subst h; rfl
  | RemoveRoot a =>
      simp only [applyEvent] at h
      split at h
      · exact absurd h (by simp)
      · simp at h; subst h; rfl
  | Connect a b => simp [applyEvent] at h; subst h; rfl
  | Disconnect a b =>
      simp only [applyEvent] at h
      split at h
      · exact absurd h (by simp)
      · simp at h; subst h; rfl

theorem applyEvent_sequence (s s' : CState) (e : Event)
    (h : applyEvent s e = some s') : s'.sequence = s.sequence := by
  cases e with
  | AddRoot a => simp [applyEvent] at h; subst h; rfl
  | RemoveRoot a =>
      simp only [applyEvent] at h
      split at h
      · exact absurd h (by simp)
      · simp at h; subst h; rfl
  | Connect a b => simp [applyEvent] at h; subst h; rfl
  | Disconnect a b =>
      simp only [applyEvent] at h
      split at h
      · exact absurd h (by simp)
      · simp at h; subst h; rfl

theorem applyEvent_gcSequence (s s' : CState) (e : Event)
    (h : applyEvent s e = some s') :
    ∀ x, (lookupC s'.heap x).gcSequence = (lookupC s.heap x).gcSequence := by
  intro x
  cases e with
  | AddRoot a =>
      simp [applyEvent] at h; subst h
      simp only [lookup_updateC]
      by_cases hx : x = a <;> simp [hx]
  | RemoveRoot a =>
      simp only [applyEvent] at h
      split at h
      · exact absurd h (by simp)
      · simp at h; subst h
        simp only [lookup_updateC]
        by_cases hx : x = a <;> simp [hx]
  | Connect a b =>
      simp [applyEvent] at h; subst h
      simp only [lookup_updateC]
      by_cases hx : x = a <;> simp [hx]
  | Disconnect a b =>
      simp only [applyEvent] at h
      split at h
      · exact absurd h (by simp)
      · simp at h; subst h
        simp only [lookup_updateC]
        by_cases hx : x = a <;> simp [hx]

theorem mem_insertNode (a x : Nat) (l : List Nat) :
    x ∈ insertNode a l ↔ x = a ∨ x ∈ l := by
  induction l with
  | nil => simp [insertNode]
  | cons b t ih =>
      by_cases hab : a < b
      · simp [insertNode, hab]
      · by_cases heq : a = b
        · subst heq
          simp [insertNode, hab]
        · simp [insertNode, hab, heq, ih]
          tauto

theorem applyEvent_nodes_mono (s s' : CState) (e : Event)
    (h : applyEvent s e = some s') : ∀ id ∈ s.nodes, id ∈ s'.nodes := by
  intro id hid
  cases e with
  | AddRoot a =>
      simp [applyEvent] at h; subst h
      simp [mem_insertNode]
      tauto
  | RemoveRoot a =>
      simp only [applyEvent] at h
      split at h
      · exact absurd h (by simp)
      · simp at h; subst h; exact hid
  | Connect a b => simp [applyEvent] at h; subst h; exact hid
  | Disconnect a b =>
      simp only [applyEvent] at h
      split at h
      · exact absurd h (by simp)
      · simp at h; subst h; exact hid

theorem applyEvent_nodes_origin (s s' : CState) (e : Event)
    (h : applyEvent s e = some s') :
    ∀ id ∈ s'.nodes, id ∈ s.nodes ∨ e = .AddRoot id := by
  intro id hid
  cases e with
  | AddRoot a =>
      simp [applyEvent] at h; subst h
      simp [mem_insertNode] at hid
      rcases hid with h1 | h1
      · subst h1; right; rfl
      · left; exact h1
  | RemoveRoot a =>
      simp only [applyEvent] at h
      split at h
      · exact absurd h (by simp)
      · simp at h; subst h; left; exact hid
  | Connect a b => simp [applyEvent] at h; subst h; left; exact hid
  | Disconnect a b =>
      simp only [applyEvent] at h
      split at h
      · exact absurd h (by simp)
      · simp at h; subst h; left; exact hid

/-! The same facts lifted over the event-drain loop. -/

theorem procList_queue (E : List Event) : ∀ (s s' : CState),
    procList s E = some s' → s'.queue = s.queue := by
  induction E with
  | nil => intro s s' h; simp [procList] at h; subst h; rfl
  | cons e rest ih =>
      intro s s' h
      simp only [procList] at h
      cases ha : applyEvent { s with graphChanged := true } e with
      | none => rw [ha] at h; exact absurd h (by simp)
      | some s1 =>
          rw [ha] at h
          have := applyEvent_queue _ _ _ ha
          rw [ih s1 s' h, this]

theorem procList_destroyed (E : List Event) : ∀ (s s' : CState),
    procList s E = some s' → s'.destroyed = s.destroyed := by
  induction E with
  | nil => intro s s' h; simp [procList] at h; subst h; rfl
  | cons e rest ih =>
      intro s s' h
      simp only [procList] at h
      cases ha : applyEvent { s with graphChanged := true } e with
      | none => rw [ha] at h; exact absurd h (by simp)
      | some s1 =>
          rw [ha] at h
          have := applyEvent_destroyed _ _ _ ha
          rw [ih s1 s' h, this]

theorem procList_inGC (E : List Event) : ∀ (s s' : CState),
    procList s E = some s' → s'.inGC = s.inGC := by
  induction E with
  | nil => intro s s' h; simp [procList] at h; subst h; rfl
  | cons e rest ih =>
      intro s s' h
      simp only [procList] at h
      cases ha : applyEvent { s with graphChanged := true } e with
      | none => rw [ha] at h; exact absurd h (by simp)
      | some s1 =>
          rw [ha] at h
          have := applyEvent_inGC _ _ _ ha
          rw [ih s1 s' h, this]

theorem procList_sequence (E : List Event) : ∀ (s s' : CState),
    procList s E = some s' → s'.sequence = s.sequence := by
  induction E with
  | nil => intro s s' h; simp [procList] at h; subst h; rfl
  | cons e rest ih =>
      intro s s' h
      simp only [procList] at h
      cases ha : applyEvent { s with graphChanged := true } e with
      | none => rw [ha] at h; exact absurd h (by simp)
      | some s1 =>
          rw [ha] at h
          have := applyEvent_sequence _ _ _ ha
          rw [ih s1 s' h, this]

theorem procList_gcSequence (E : List Event) : ∀ (s s' : CState),
    procList s E = some s' →
    ∀ x, (lookupC s'.heap x).gcSequence = (lookupC s.heap x).gcSequence := by
  induction E with
  | nil => intro s s' h; simp [procList] at h; subst h; intro x; rfl
  | cons e rest ih =>
      intro s s' h
      simp only [procList] at h
      cases ha : applyEvent { s with graphChanged := true } e with
      | none => rw [ha] at h; exact absurd h (by simp)
      | some s1 =>
          rw [ha] at h
          intro x
          rw [ih s1 s' h x, applyEvent_gcSequence _ _ _ ha x]

theorem procList_nodes_mono (E : List Event) : ∀ (s s' : CState),
    procList s E = some s' → ∀ id ∈ s.nodes, id ∈ s'.nodes := by
  induction E with
  | nil => intro s s' h; simp [procList] at h; subst h; intro id hid; exact hid
  | cons e rest ih =>
      intro s s' h
      simp only [procList] at h
      cases ha : applyEvent { s with graphChanged := true } e with
      | none => rw [ha] at h; exact absurd h (by simp)
      | some s1 =>
          rw [ha] at h
          intro id hid
          exact ih s1 s' h id (applyEvent_nodes_mono _ _ _ ha id hid)

theorem procList_nodes_origin (E : List Event) : ∀ (s s' : CState),
    procList s E = some s' → ∀ id ∈ s'.nodes, id ∈ s.nodes ∨ Event.AddRoot id ∈ E := by
  induction E with
  | nil => intro s s' h; simp [procList] at h; subst h; intro id hid; left; exact hid
  | cons e rest ih =>
      intro s s' h
      simp only [procList] at h
      cases ha : applyEvent { s with graphChanged := true } e with
      | none => rw [ha] at h; exact absurd h (by simp)
      | some s1 =>
          rw [ha] at h
          intro id hid
          rcases ih s1 s' h id hid with h1 | h1
          · rcases applyEvent_nodes_origin _ _ _ ha id h1 with h2 | h2
            · left; exact h2
            · right; subst h2; simp
          · right; exact List.mem_cons_of_mem _ h1

theorem procList_append (E1 E2 : List Event) : ∀ (s : CState),
    procList s (E1 ++ E2) = (procList s E1).bind (fun t => procList t E2) := by
  induction E1 with
  | nil => intro s; simp [procList]
  | cons e rest ih =>
      intro s
      simp only [List.cons_append, procList]
      cases ha : applyEvent { s with graphChanged := true } e with
      | none => simp
      | some s1 => simp [ih s1]

/-! Lemmas about the mark loop. -/

theorem markLoop_conns (seq : Nat) : ∀ (fuel : Nat) (h : Heap) (st : List Nat) (x : Nat),
    (lookupC (markLoop seq fuel h st) x).gcConnections = (lookupC h x).gcConnections := by
  intro fuel
  induction fuel with
  | zero => intro h st x; rfl
  | succ fuel ih =>
      intro h st x
      match st with
      | [] => rfl
      | y :: rest =>
          by_cases hy : (lookupC h y).gcSequence = seq
          · simp only [markLoop, hy, ne_eq, not_true_eq_false, if_false]
            exact ih h rest x
          · simp only [markLoop, hy, ne_eq, not_false_eq_true, if_true]
            rw [ih _ _ x, conns_setSeq]

/-- If every stamped node has all its connections stamped or listed in
L, then a path from a stamped node either stays stamped to its end or
enters L. -/
theorem escape_stamped (seq : Nat) (h0 h : Heap) (L : List Nat)
    (hcl : ∀ z, stamped seq h z → ∀ e ∈ (lookupC h0 z).gcConnections,
        stamped seq h e ∨ e ∈ L) :
    ∀ x y, Relation.ReflTransGen (edgeRel h0) x y → stamped seq h x →
      stamped seq h y ∨ ∃ z ∈ L, Relation.ReflTransGen (edgeRel h0) z y := by
  intro x y hpath
  induction hpath using Relation.ReflTransGen.head_induction_on with
  | refl => intro hx; left; exact hx
  | head hstep htail ih =>
      rename_i a c
      intro ha
      rcases hcl a ha c hstep with hc | hc
      · exact ih hc
      · right; exact ⟨c, hc, htail⟩

/-- Soundness of the mark loop: any node it newly stamps is reachable
from the stack via the fixed edge mirror h0. -/
theorem markLoop_sound (seq : Nat) (h0 : Heap) : ∀ (fuel : Nat) (h : Heap) (st : List Nat),
    (∀ x, (lookupC h x).gcConnections = (lookupC h0 x).gcConnections) →
    ∀ y, stamped seq (markLoop seq fuel h st) y →
      stamped seq h y ∨ ∃ x ∈ st, Relation.ReflTransGen (edgeRel h0) x y := by
  intro fuel
  induction fuel with
  | zero => intro h st _ y hy; left; exact hy
  | succ fuel ih =>
      intro h st hedges y hy
      match st with
      | [] => left; exact hy
      | x :: rest =>
          by_cases hx : (lookupC h x).gcSequence = seq
          · simp only [markLoop, hx, ne_eq, not_true_eq_false, if_false] at hy
            rcases ih h rest hedges y hy with h1 | ⟨z, hz, hp⟩
            · left; exact h1
            · right; exact ⟨z, List.mem_cons_of_mem _ hz, hp⟩
          · simp only [markLoop, hx, ne_eq, not_false_eq_true, if_true] at hy
            have hedges' : ∀ z, (lookupC (setSeq seq h x) z).gcConnections
                = (lookupC h0 z).gcConnections := by
              intro z; rw [conns_setSeq]; exact hedges z
            rcases ih _ _ hedges' y hy with h1 | ⟨z, hz, hp⟩
            · rcases (stamped_setSeq seq h x y).mp h1 with h2 | h2
              · subst h2
                right; exact ⟨y, by simp, Relation.ReflTransGen.refl⟩
              · left; exact h2
            · rcases List.mem_append.mp hz with h2 | h2
              · right
                refine ⟨x, by simp, Relation.ReflTransGen.head ?_ hp⟩
                have : z ∈ (lookupC h x).gcConnections := by
                  simpa using List.mem_reverse.mp h2
                unfold edgeRel
                rw [← hedges x]
                exact this
              · right; exact ⟨z, List.mem_cons_of_mem _ h2, hp⟩

/-- Completeness of the mark loop: with fuel covering the termination
measure, everything already stamped or reachable from the stack ends
up stamped. -/
theorem markLoop_complete (seq : Nat) (h0 : Heap) : ∀ (fuel : Nat) (h : Heap) (st : List Nat),
    st.length + weight seq h ≤ fuel →
    (∀ x, (lookupC h x).gcConnections = (lookupC h0 x).gcConnections) →
    (∀ z, stamped seq h z → ∀ e ∈ (lookupC h0 z).gcConnections,
        stamped seq h e ∨ e ∈ st) →
    ∀ y, (stamped seq h y ∨ ∃ x ∈ st, Relation.ReflTransGen (edgeRel h0) x y) →
      stamped seq (markLoop seq fuel h st) y := by
  intro fuel
  induction fuel with
  | zero =>
      intro h st hfuel hedges hinv y hy
      have hst : st = [] := by
        cases st with
        | nil => rfl
        | cons a t => simp at hfuel
      subst hst
      rcases hy with h1 | ⟨x, hx, _⟩
      · exact h1
      · exact absurd hx (by simp)
  | succ fuel ih =>
      intro h st hfuel hedges hinv y hy
      match st with
      | [] =>
          rcases hy with h1 | ⟨x, hx, _⟩
          · exact h1
          · exact absurd hx (by simp)
      | x :: rest =>
          by_cases hx : (lookupC h x).gcSequence = seq
          · simp only [markLoop, hx, ne_eq, not_true_eq_false, if_false]
            have hinv' : ∀ z, stamped seq h z →
                ∀ e ∈ (lookupC h0 z).gcConnections, stamped seq h e ∨ e ∈ rest := by
              intro z hz e he
              rcases hinv z hz e he with h1 | h1
              · left; exact h1
              · rcases List.mem_cons.mp h1 with h2 | h2
                · left; subst h2; exact hx
                · right; exact h2
            refine ih h rest ?_ hedges hinv' y ?_
            · simp only [List.length_cons] at hfuel; omega
            · rcases hy with h1 | ⟨z, hz, hp⟩
              · left; exact h1
              · rcases List.mem_cons.mp hz with h2 | h2
                · subst h2
                  rcases escape_stamped seq h0 h rest hinv' z y hp hx with h3 | h3
                  · left; exact h3
                  · right; exact h3
                · right; exact ⟨z, h2, hp⟩
          · simp only [markLoop, hx, ne_eq, not_false_eq_true, if_true]
            have hfuel' : ((lookupC h x).gcConnections.reverse ++ rest).length
                + weight seq (setSeq seq h x) ≤ fuel := by
              have hw := weight_setSeq seq h x hx
              simp only [List.length_append, List.length_reverse, List.length_cons] at hfuel ⊢
              omega
            have hedges' : ∀ z, (lookupC (setSeq seq h x) z).gcConnections
                = (lookupC h0 z).gcConnections := by
              intro z; rw [conns_setSeq]; exact hedges z
            have hinv' : ∀ z, stamped seq (setSeq seq h x) z →
                ∀ e ∈ (lookupC h0 z).gcConnections,
                  stamped seq (setSeq seq h x) e ∨ e ∈ (lookupC h x).gcConnections.reverse ++ rest := by
              intro z hz e he
              rcases (stamped_setSeq seq h x z).mp hz with h1 | h1
              · subst h1
                right
                refine List.mem_append.mpr (Or.inl ?_)
                rw [List.mem_reverse, hedges z]
                exact he
              · rcases hinv z h1 e he with h2 | h2
                · left; exact (stamped_setSeq seq h x e).mpr (Or.inr h2)
                · rcases List.mem_cons.mp h2 with h3 | h3
                  · left; exact (stamped_setSeq seq h x e).mpr (Or.inl h3)
                  · right; exact List.mem_append.mpr (Or.inr h3)
            refine ih _ _ hfuel' hedges' hinv' y ?_
            rcases hy with h1 | ⟨z, hz, hp⟩
            · left; exact (stamped_setSeq seq h x y).mpr (Or.inr h1)
            · rcases List.mem_cons.mp hz with h2 | h2
              · rcases (Relation.ReflTransGen.cases_head hp) with h3 | ⟨c, hc, hcy⟩
                · left
                  exact (stamped_setSeq seq h x y).mpr (Or.inl (h3 ▸ h2))
                · right
                  refine ⟨c, ?_, hcy⟩
                  refine List.mem_append.mpr (Or.inl ?_)
                  rw [List.mem_reverse, hedges x]
                  have : c ∈ (lookupC h0 z).gcConnections := hc
                  rw [h2] at this
                  exact this
              · right; exact ⟨z, List.mem_append.mpr (Or.inr h2), hp⟩

/-! Phase decomposition of Collect. -/

theorem queue_update_eta (s : CState) (hq : s.queue = []) :
    ({ s with queue := [] } : CState) = s := by
  cases s; simp_all

theorem ProcessEvents_nil (s : CState) (hq : s.queue = []) :
    ProcessEvents s = some s := by
  unfold ProcessEvents
  rw [hq]
  rw [queue_update_eta s hq]
  rfl

theorem markPhase_dirty (s : CState) (hd : s.graphChanged = true) :
    markPhase s = { s with
      sequence := s.sequence + 1
      heap := markLoop (s.sequence + 1)
          (markFuel (s.sequence + 1) s.heap (rootSeeds s).reverse)
          s.heap (rootSeeds s).reverse } := by
  unfold markPhase
  rw [hd]
  rfl

theorem markPhase_clean (s : CState) (hd : s.graphChanged = false) :
    markPhase s = s := by
  unfold markPhase
  rw [hd]
  rfl

theorem sweepPhase_dirty (s : CState) (hd : s.graphChanged = true) :
    sweepPhase s = { s with
      nodes := s.nodes.filter (fun id => (lookupC s.heap id).gcSequence = s.sequence)
      destroyed := s.destroyed
          ++ s.nodes.filter (fun id => ¬ (lookupC s.heap id).gcSequence = s.sequence)
      graphChanged := false } := by
  unfold sweepPhase
  rw [hd]
  rfl

theorem sweepPhase_clean (s : CState) (hd : s.graphChanged = false) :
    sweepPhase s = s := by
  unfold sweepPhase
  rw [hd]
  rfl

theorem notStamped_of_le (h : Heap) (n : Nat)
    (hle : ∀ p ∈ h, p.2.gcSequence ≤ n) : ∀ x, ¬ stamped (n + 1) h x := by
  intro x hx
  have := lookupC_of_all (fun c => c.gcSequence ≤ n) h x hle (by simp [Collectable.init])
  unfold stamped at hx
  omega

theorem rootCount_lookup_nonneg (h : Heap)
    (hrc : ∀ p ∈ h, 0 ≤ p.2.gcRootCount) : ∀ x, 0 ≤ (lookupC h x).gcRootCount :=
  fun x => lookupC_of_all (fun c => 0 ≤ c.gcRootCount) h x hrc (by simp [Collectable.init])

theorem mem_rootSeeds (s : CState) (x : Nat) :
    x ∈ rootSeeds s ↔ x ∈ s.nodes ∧ (lookupC s.heap x).gcRootCount ≠ 0 := by
  simp [rootSeeds]

/-! Claim C1: sweep correctness. -/

/-- C1: for every mirror state at the start of a collect that finds the
graph dirty (empty queue, dirty flag set, stamps at most the current
sequence, nonnegative root counts), after Collect returns every object
registered at trace start that is not reachable from a registered
object with positive root count via the mirrored edges has been
destroyed exactly once and removed from the registry, and every object
still registered is reachable from such a root. -/
theorem collect_sweep_correct (tid : Nat) (s : CState)
    (hq : s.queue = []) (hd : s.graphChanged = true) (hnd : s.nodes.Nodup)
    (hst : ∀ p ∈ s.heap, p.2.gcSequence ≤ s.sequence)
    (hrc : ∀ p ∈ s.heap, 0 ≤ p.2.gcRootCount) :
    ∃ s', Collect tid s = some s' ∧
      (∀ id ∈ s.nodes, ¬ RootReachable s id →
          s'.destroyed.count id = s.destroyed.count id + 1 ∧ id ∉ s'.nodes) ∧
      (∀ id ∈ s'.nodes, RootReachable s id) := by
  have hgc : (collectEnter tid s).graphChanged = true := hd
  have hqc : (collectEnter tid s).queue = [] := hq
  have hPE : ProcessEvents (collectEnter tid s) = some (collectEnter tid s) :=
    ProcessEvents_nil _ hqc
  have hC : Collect tid s
      = some (setInGC tid false (sweepPhase (markPhase (collectEnter tid s)))) := by
    unfold Collect
    rw [hPE]
    rfl
  have e1 : (markPhase (collectEnter tid s)).heap
      = markLoop (s.sequence + 1)
          (markFuel (s.sequence + 1) s.heap (rootSeeds s).reverse)
          s.heap (rootSeeds s).reverse := by
    rw [markPhase_dirty _ hgc]; rfl
  have e2 : (markPhase (collectEnter tid s)).nodes = s.nodes := by
    rw [markPhase_dirty _ hgc]; rfl
  have e3 : (markPhase (collectEnter tid s)).sequence = s.sequence + 1 := by
    rw [markPhase_dirty _ hgc]; rfl
  have e4 : (markPhase (collectEnter tid s)).graphChanged = true := by
    rw [markPhase_dirty _ hgc]; exact hd
  have e5 : (markPhase (collectEnter tid s)).destroyed = s.destroyed := by
    rw [markPhase_dirty _ hgc]; rfl
  have f1 : (sweepPhase (markPhase (collectEnter tid s))).nodes
      = s.nodes.filter (fun id =>
          (lookupC (markLoop (s.sequence + 1)
            (markFuel (s.sequence + 1) s.heap (rootSeeds s).reverse)
            s.heap (rootSeeds s).reverse) id).gcSequence = s.sequence + 1) := by
    rw [sweepPhase_dirty _ e4]
    simp only [e1, e2, e3]
  have f2 : (sweepPhase (markPhase (collectEnter tid s))).destroyed
      = s.destroyed ++ s.nodes.filter (fun id =>
          ¬ (lookupC (markLoop (s.sequence + 1)
            (markFuel (s.sequence + 1) s.heap (rootSeeds s).reverse)
            s.heap (rootSeeds s).reverse) id).gcSequence = s.sequence + 1) := by
    rw [sweepPhase_dirty _ e4]
    simp only [e1, e2, e3, e5]
  have hnotst : ∀ x, ¬ stamped (s.sequence + 1) s.heap x :=
    notStamped_of_le s.heap s.sequence hst
  have hsound : ∀ y, stamped (s.sequence + 1)
      (markLoop (s.sequence + 1)
        (markFuel (s.sequence + 1) s.heap (rootSeeds s).reverse)
        s.heap (rootSeeds s).reverse) y → RootReachable s y := by
    intro y hy
    rcases markLoop_sound (s.sequence + 1) s.heap _ s.heap _ (fun _ => rfl) y hy with
      h1 | ⟨x, hx, hp⟩
    · exact absurd h1 (hnotst y)
    · have hx' : x ∈ rootSeeds s := List.mem_reverse.mp hx
      rw [mem_rootSeeds] at hx'
      exact ⟨x, hx'.1,
        lt_of_le_of_ne (rootCount_lookup_nonneg s.heap hrc x) (Ne.symm hx'.2), hp⟩
  have hcomp : ∀ y, RootReachable s y → stamped (s.sequence + 1)
      (markLoop (s.sequence + 1)
        (markFuel (s.sequence + 1) s.heap (rootSeeds s).reverse)
        s.heap (rootSeeds s).reverse) y := by
    rintro y ⟨r, hrn, hrpos, hp⟩
    refine markLoop_complete (s.sequence + 1) s.heap _ s.heap _ Nat.le.refl
      (fun _ => rfl) (fun z hz => absurd hz (hnotst z)) y (Or.inr ⟨r, ?_, hp⟩)
    rw [List.mem_reverse, mem_rootSeeds]
    exact ⟨hrn, by omega⟩
  refine ⟨_, hC, ?_, ?_⟩
  · intro id hid hnr
    have hnst : ¬ stamped (s.sequence + 1)
        (markLoop (s.sequence + 1)
          (markFuel (s.sequence + 1) s.heap (rootSeeds s).reverse)
          s.heap (rootSeeds s).reverse) id := fun hcon => hnr (hsound id hcon)
    constructor
    · show (sweepPhase (markPhase (collectEnter tid s))).destroyed.count id = _
      rw [f2, List.count_append]
      have hmem : id ∈ s.nodes.filter (fun id =>
          ¬ (lookupC (markLoop (s.sequence + 1)
            (markFuel (s.sequence + 1) s.heap (rootSeeds s).reverse)
            s.heap (rootSeeds s).reverse) id).gcSequence = s.sequence + 1) := by
        simp only [List.mem_filter, decide_eq_true_eq]
        exact ⟨hid, hnst⟩
      rw [List.count_eq_one_of_mem (hnd.filter _) hmem]
    · show id ∉ (sweepPhase (markPhase (collectEnter tid s))).nodes
      rw [f1]
      intro hcon
      simp only [List.mem_filter, decide_eq_true_eq] at hcon
      exact hnst hcon.2
  · intro id hid
    have hid' : id ∈ (sweepPhase (markPhase (collectEnter tid s))).nodes := hid
    rw [f1] at hid'
    simp only [List.mem_filter, decide_eq_true_eq] at hid'
    exact hsound id hid'.2

/-! Field preservation through the phases. -/

theorem markPhase_queue (s : CState) : (markPhase s).queue = s.queue := by
  unfold markPhase; split <;> rfl

theorem markPhase_nodes (s : CState) : (markPhase s).nodes = s.nodes := by
  unfold markPhase; split <;> rfl

theorem markPhase_destroyed (s : CState) : (markPhase s).destroyed = s.destroyed := by
  unfold markPhase; split <;> rfl

theorem markPhase_inGC (s : CState) : (markPhase s).inGC = s.inGC := by
  unfold markPhase; split <;> rfl

theorem markPhase_graphChanged (s : CState) : (markPhase s).graphChanged = s.graphChanged := by
  unfold markPhase; split <;> rfl

theorem sweepPhase_queue (s : CState) : (sweepPhase s).queue = s.queue := by
  unfold sweepPhase; split <;> rfl

theorem sweepPhase_inGC (s : CState) : (sweepPhase s).inGC = s.inGC := by
  unfold sweepPhase; split <;> rfl

theorem sweepPhase_heap (s : CState) : (sweepPhase s).heap = s.heap := by
  unfold sweepPhase; split <;> rfl

theorem sweepPhase_sequence (s : CState) : (sweepPhase s).sequence = s.sequence := by
  unfold sweepPhase; split <;> rfl

theorem sweepPhase_graphChanged (s : CState) : (sweepPhase s).graphChanged = false := by
  unfold sweepPhase
  split
  · rfl
  · rename_i hgc
    simpa using hgc

theorem sweepPhase_nodes_sub (s : CState) :
    ∀ id ∈ (sweepPhase s).nodes, id ∈ s.nodes := by
  unfold sweepPhase
  split
  · intro id hid
    exact (List.mem_filter.mp hid).1
  · intro id hid
    exact hid

theorem sweepPhase_destroyed_sub (s : CState) :
    ∀ id ∈ (sweepPhase s).destroyed, id ∈ s.destroyed ∨ id ∈ s.nodes := by
  unfold sweepPhase
  split
  · intro id hid
    rcases List.mem_append.mp hid with h1 | h1
    · left; exact h1
    · right; exact (List.mem_filter.mp h1).1
  · intro id hid
    left; exact hid

/-- After any successful Collect the queue is drained and the dirty
flag is clear. -/
theorem Collect_post (tid : Nat) (s s' : CState) (h : Collect tid s = some s') :
    s'.queue = [] ∧ s'.graphChanged = false := by
  unfold Collect at h
  cases hPE : ProcessEvents (collectEnter tid s) with
  | none => rw [hPE] at h; exact absurd h (by simp)
  | some s2 =>
      rw [hPE] at h
      simp only [Option.map_some', Option.some.injEq] at h
      subst h
      have hq2 : s2.queue = [] := by
        have := procList_queue (collectEnter tid s).queue _ _ hPE
        simpa using this
      constructor
      · show (sweepPhase (markPhase s2)).queue = []
        rw [sweepPhase_queue, markPhase_queue]
        exact hq2
      · show (sweepPhase (markPhase s2)).graphChanged = false
        exact sweepPhase_graphChanged _

/-! Claim C2: idempotence of Collect. -/

/-- C2: an immediate second Collect after a successful Collect, with
no handle operations in between, performs no destruction and leaves
the registry (and the whole mirror) exactly as the first call left it:
the first call cleared the dirty flag, so the second skips trace and
sweep. -/
theorem collect_idempotent (tid tid2 : Nat) (s : CState)
    (h : (Collect tid s).isSome = true) :
    ∃ s2, Collect tid2 ((Collect tid s).get h) = some s2 ∧
      s2.nodes = ((Collect tid s).get h).nodes ∧
      s2.destroyed = ((Collect tid s).get h).destroyed ∧
      s2.heap = ((Collect tid s).get h).heap ∧
      s2.sequence = ((Collect tid s).get h).sequence := by
  obtain ⟨s1, hs1⟩ := Option.isSome_iff_exists.mp h
  have hget : (Collect tid s).get h = s1 := by simp [hs1]
  rw [hget]
  obtain ⟨hq1, hgc1⟩ := Collect_post tid s s1 hs1
  have hqc : (collectEnter tid2 s1).queue = [] := hq1
  have hgcc : (collectEnter tid2 s1).graphChanged = false := hgc1
  have hPE : ProcessEvents (collectEnter tid2 s1) = some (collectEnter tid2 s1) :=
    ProcessEvents_nil _ hqc
  have hmc : markPhase (collectEnter tid2 s1) = collectEnter tid2 s1 :=
    markPhase_clean _ hgcc
  have hsc : sweepPhase (collectEnter tid2 s1) = collectEnter tid2 s1 :=
    sweepPhase_clean _ hgcc
  refine ⟨setInGC tid2 false (collectEnter tid2 s1), ?_, rfl, rfl, rfl, rfl⟩
  unfold Collect
  rw [hPE]
  simp only [Option.map_some', Option.some.injEq]
  rw [hmc, hsc]

/-! Claim C3: EdgePtr destructor event emission. -/

/-- C3: the EdgePtr destructor emits nothing when the thread-local
in-GC flag of the destroying thread is set; otherwise it emits exactly
one Disconnect(owner, target) when the target is non-null; a null
handle emits nothing in either case. -/
theorem edgePtr_dtor_emission (g : Bool) (o : Nat) (t : Option Nat) :
    (g = true → edgePtrDtorEvents g o t = []) ∧
    (g = false → ∀ x, t = some x → edgePtrDtorEvents g o t = [.Disconnect o x]) ∧
    (t = none → edgePtrDtorEvents g o t = []) := by
  refine ⟨?_, ?_, ?_⟩
  · intro hg
    subst hg
    rfl
  · intro hg x hx
    subst hg; subst hx
    rfl
  · intro ht
    subst ht
    cases g <;> rfl

/-- Witness for C3 at concrete inputs. -/
theorem edgePtr_dtor_emission_witness :
    edgePtrDtorEvents true 1 (some 2) = [] ∧
    edgePtrDtorEvents false 1 (some 2) = [.Disconnect 1 2] ∧
    edgePtrDtorEvents false 1 none = [] :=
  ⟨(edgePtr_dtor_emission true 1 (some 2)).1 rfl,
   (edgePtr_dtor_emission false 1 (some 2)).2.1 rfl 2 rfl,
   (edgePtr_dtor_emission false 1 none).2.2 rfl⟩

/-! Claim C4: the in-GC flag.  The claim says the flag is true only
during the sweep phase and false during the event drain and the mark
phase; in the code Collect sets the flag before draining any event, so
the flag is in fact true from entry to exit of Collect. -/

/-- C4 counterexample: at the start of the event drain inside Collect
(state collectEnter tid s) the in-GC flag of the collecting thread is
already true, not false as the claim states. -/
theorem inGC_not_false_during_drain :
    ¬ InGC 0 (collectEnter 0 initState) = false := by decide

/-- C4 amended: on the collecting thread the in-GC flag is true for
the whole duration of Collect - already during the event drain, the
mark phase and the sweep phase - and it is reset to false when Collect
returns; the flags of all other threads are never modified by
Collect. -/
theorem inGC_during_collect (tid : Nat) (s : CState) :
    InGC tid (collectEnter tid s) = true ∧
    (∀ s2, ProcessEvents (collectEnter tid s) = some s2 →
      InGC tid s2 = true ∧
      InGC tid (markPhase s2) = true ∧
      InGC tid (sweepPhase (markPhase s2)) = true) ∧
    (∀ s1, Collect tid s = some s1 → InGC tid s1 = false) ∧
    (∀ tid2, tid2 ≠ tid →
      InGC tid2 (collectEnter tid s) = InGC tid2 s ∧
      (∀ s2, ProcessEvents (collectEnter tid s) = some s2 →
        InGC tid2 (sweepPhase (markPhase s2)) = InGC tid2 s) ∧
      (∀ s1, Collect tid s = some s1 → InGC tid2 s1 = InGC tid2 s)) := by
  have henter : InGC tid (collectEnter tid s) = true := by
    simp [InGC, collectEnter, setInGC]
  have hdrainGC : ∀ s2, ProcessEvents (collectEnter tid s) = some s2 →
      s2.inGC = (collectEnter tid s).inGC := by
    intro s2 h2
    exact procList_inGC (collectEnter tid s).queue
      { collectEnter tid s with queue := [] } s2 h2
  refine ⟨henter, ?_, ?_, ?_⟩
  · intro s2 h2
    have hflag : s2.inGC = (collectEnter tid s).inGC := hdrainGC s2 h2
    have h1 : InGC tid s2 = true := by
      show s2.inGC tid = true
      rw [hflag]
      exact henter
    refine ⟨h1, ?_, ?_⟩
    · show (markPhase s2).inGC tid = true
      rw [markPhase_inGC]
      exact h1
    · show (sweepPhase (markPhase s2)).inGC tid = true
      rw [sweepPhase_inGC, markPhase_inGC]
      exact h1
  · intro s1 h1
    unfold Collect at h1
    cases hPE : ProcessEvents (collectEnter tid s) with
    | none => rw [hPE] at h1; exact absurd h1 (by simp)
    | some s2 =>
        rw [hPE] at h1
        simp only [Option.map_some', Option.some.injEq] at h1
        subst h1
        simp [InGC, setInGC]
  · intro tid2 hne
    have he2 : InGC tid2 (collectEnter tid s) = InGC tid2 s := by
      simp [InGC, collectEnter, setInGC, hne]
    refine ⟨he2, ?_, ?_⟩
    · intro s2 h2
      show (sweepPhase (markPhase s2)).inGC tid2 = InGC tid2 s
      rw [sweepPhase_inGC, markPhase_inGC, hdrainGC s2 h2]
      exact he2
    · intro s1 h1
      unfold Collect at h1
      cases hPE : ProcessEvents (collectEnter tid s) with
      | none => rw [hPE] at h1; exact absurd h1 (by simp)
      | some s2 =>
          rw [hPE] at h1
          simp only [Option.map_some', Option.some.injEq] at h1
          subst h1
          show (setInGC tid false (sweepPhase (markPhase s2))).inGC tid2 = InGC tid2 s
          simp only [setInGC, hne, if_neg hne]
          rw [sweepPhase_inGC, markPhase_inGC, hdrainGC s2 hPE]
          exact he2

/-- Witness for C4 (amended) at concrete inputs. -/
theorem inGC_during_collect_witness :
    InGC 0 (collectEnter 0 initState) = true ∧
    (InGC 0 (collectEnter 0 initState) = true ∧
     InGC 0 (markPhase (collectEnter 0 initState)) = true ∧
     InGC 0 (sweepPhase (markPhase (collectEnter 0 initState))) = true) ∧
    InGC 0 (setInGC 0 false (sweepPhase (markPhase (collectEnter 0 initState)))) = false ∧
    (InGC 1 (collectEnter 0 initState) = InGC 1 initState ∧
     InGC 1 (sweepPhase (markPhase (collectEnter 0 initState))) = InGC 1 initState ∧
     InGC 1 (setInGC 0 false (sweepPhase (markPhase (collectEnter 0 initState)))) = InGC 1 initState) :=
  ⟨(inGC_during_collect 0 initState).1,
   (inGC_during_collect 0 initState).2.1 _ rfl,
   (inGC_during_collect 0 initState).2.2.1 _ rfl,
   ((inGC_during_collect 0 initState).2.2.2 1 (by decide)).1,
   ((inGC_during_collect 0 initState).2.2.2 1 (by decide)).2.1 _ rfl,
   ((inGC_during_collect 0 initState).2.2.2 1 (by decide)).2.2 _ rfl⟩

/-! Claim C5: event emission on EdgePtr construction and assignment.
EdgePtr declares no copy constructor, so copy construction from
another EdgePtr is the compiler-generated memberwise copy and emits no
Connect; destroying the original and the copy then emits two
Disconnects for a single mirrored edge, and the replay of the second
one hits the missing-edge assert in _ProcessEvents.  The claim (and
the spec) say copy construction emits Connect(owner, target); the code
does not. -/

/-- C5: replaying the events of the scenario - root 1 and 2, build an
edge handle from 1 to 2 out of the root, copy-construct a second edge
handle from it, then destroy both handles outside the collector -
aborts on the assert in the Disconnect case, because the memberwise
copy constructor emitted no Connect. -/
theorem edge_copy_ctor_breaks_replay :
    procList initState
      (rootPtrCtorEvents (some 1) ++ rootPtrCtorEvents (some 2) ++
       edgeCtorFromRootEvents 1 (some 2) ++ edgeCopyCtorEvents 1 (some 2) ++
       edgePtrDtorEvents false 1 (some 2) ++ edgePtrDtorEvents false 1 (some 2)) = none := by
  rfl

/-! Claim C6: replay of Disconnect. -/

theorem removeFirst_eq_none (b : Nat) (l : List Nat) :
    removeFirst b l = none ↔ b ∉ l := by
  induction l with
  | nil => simp [removeFirst]
  | cons x t ih =>
      by_cases hx : x = b
      · subst hx
        simp [removeFirst]
      · simp [removeFirst, hx, Option.map_eq_none', ih, Ne.symm hx]

theorem removeFirst_spec (b : Nat) (l : List Nat) (h : b ∈ l) :
    ∃ l1 l2, l = l1 ++ b :: l2 ∧ b ∉ l1 ∧ removeFirst b l = some (l1 ++ l2) := by
  induction l with
  | nil => cases h
  | cons x t ih =>
      by_cases hx : x = b
      · subst hx
        exact ⟨[], t, rfl, by simp, by simp [removeFirst]⟩
      · have hbt : b ∈ t := by
          rcases List.mem_cons.mp h with h1 | h1
          · exact absurd h1.symm hx
          · exact h1
        obtain ⟨l1, l2, he, hb1, hr⟩ := ih hbt
        refine ⟨x :: l1, l2, by rw [List.cons_append, he], ?_, ?_⟩
        · simp only [List.mem_cons, not_or]
          exact ⟨fun hc => hx hc.symm, hb1⟩
        · simp [removeFirst, hx, hr]

/-- C6: replaying Disconnect(a, b) removes exactly the first
occurrence of b from the mirrored edge list of a, leaving all other
occurrences and all other objects untouched; when no occurrence
exists, the replay aborts on the assert. -/
theorem disconnect_replay (s : CState) (a b : Nat) :
    (b ∉ (lookupC s.heap a).gcConnections → applyEvent s (.Disconnect a b) = none) ∧
    (b ∈ (lookupC s.heap a).gcConnections →
      ∃ s1 l1 l2, applyEvent s (.Disconnect a b) = some s1 ∧
        (lookupC s.heap a).gcConnections = l1 ++ b :: l2 ∧ b ∉ l1 ∧
        (lookupC s1.heap a).gcConnections = l1 ++ l2 ∧
        (∀ x, x ≠ a → lookupC s1.heap x = lookupC s.heap x)) := by
  constructor
  · intro hb
    have hr : removeFirst b (lookupC s.heap a).gcConnections = none :=
      (removeFirst_eq_none _ _).mpr hb
    simp only [applyEvent, hr]
  · intro hb
    obtain ⟨l1, l2, he, hb1, hr⟩ := removeFirst_spec b _ hb
    refine ⟨{ s with
        heap := updateC (fun c => { c with gcConnections := l1 ++ l2 }) s.heap a },
      l1, l2, ?_, he, hb1, ?_, ?_⟩
    · simp only [applyEvent, hr]
    · show (lookupC (updateC (fun c => { c with gcConnections := l1 ++ l2 }) s.heap a) a).gcConnections = l1 ++ l2
      rw [lookup_updateC]
      simp
    · intro x hx
      show lookupC (updateC (fun c => { c with gcConnections := l1 ++ l2 }) s.heap a) x = lookupC s.heap x
      rw [lookup_updateC]
      simp [hx]

/-- Witness for C6 at concrete inputs: object 1 in sD has mirrored
edges [2, 3, 2]; Disconnect(1, 5) aborts, Disconnect(1, 2) removes
the first 2 and keeps the duplicate. -/
theorem disconnect_replay_witness :
    applyEvent sD (.Disconnect 1 5) = none ∧
    (∃ s1 l1 l2, applyEvent sD (.Disconnect 1 2) = some s1 ∧
      (lookupC sD.heap 1).gcConnections = l1 ++ 2 :: l2 ∧ 2 ∉ l1 ∧
      (lookupC s1.heap 1).gcConnections = l1 ++ l2 ∧
      (∀ x, x ≠ 1 → lookupC s1.heap x = lookupC sD.heap x)) :=
  ⟨(disconnect_replay sD 1 5).1 (by decide),
   (disconnect_replay sD 1 2).2 (by decide)⟩

/-- Witness for C1 at a concrete state: in sC1 the rooted object 1 and
the cycle partner 2 survive, the unreachable object 5 is destroyed. -/
theorem collect_sweep_correct_witness :
    (sC1.queue = [] ∧ sC1.graphChanged = true ∧ sC1.nodes.Nodup ∧
     (∀ p ∈ sC1.heap, p.2.gcSequence ≤ sC1.sequence) ∧
     (∀ p ∈ sC1.heap, 0 ≤ p.2.gcRootCount)) ∧
    (∃ s1, Collect 0 sC1 = some s1 ∧
      (∀ id ∈ sC1.nodes, ¬ RootReachable sC1 id →
          s1.destroyed.count id = sC1.destroyed.count id + 1 ∧ id ∉ s1.nodes) ∧
      (∀ id ∈ s1.nodes, RootReachable sC1 id)) :=
  ⟨⟨by decide, by decide, by decide, by decide, by decide⟩,
   collect_sweep_correct 0 sC1 (by decide) (by decide) (by decide) (by decide) (by decide)⟩

/-- Witness for C2: a second Collect after collecting sC1. -/
theorem collect_idempotent_witness :
    ∃ hp : (Collect 0 sC1).isSome = true,
      ∃ s2, Collect 1 ((Collect 0 sC1).get hp) = some s2 ∧
        s2.nodes = ((Collect 0 sC1).get hp).nodes ∧
        s2.destroyed = ((Collect 0 sC1).get hp).destroyed ∧
        s2.heap = ((Collect 0 sC1).get hp).heap ∧
        s2.sequence = ((Collect 0 sC1).get hp).sequence :=
  have hp : (Collect 0 sC1).isSome = true := by decide
  ⟨hp, collect_idempotent 0 1 sC1 hp⟩

/-! Claim C7: root counts stay nonnegative. -/

theorem applyEvent_rootCount_nonneg (s s1 : CState) (e : Event)
    (h0 : ∀ x, 0 ≤ (lookupC s.heap x).gcRootCount)
    (h : applyEvent s e = some s1) : ∀ x, 0 ≤ (lookupC s1.heap x).gcRootCount := by
  intro x
  cases e with
  | AddRoot a =>
      simp [applyEvent] at h
      subst h
      have := h0 a
      have hax := h0 x
      by_cases hx : x = a
      · subst hx
        simp [lookup_updateC]
        omega
      · simp [lookup_updateC, hx]
        exact hax
  | RemoveRoot a =>
      simp only [applyEvent] at h
      split at h
      · exact absurd h (by simp)
      · rename_i hcond
        simp at h
        subst h
        have := h0 a
        have hax := h0 x
        by_cases hx : x = a
        · subst hx
          simp [lookup_updateC]
          omega
        · simp [lookup_updateC, hx]
          exact hax
  | Connect a b =>
      simp [applyEvent] at h
      subst h
      have := h0 a
      have hax := h0 x
      by_cases hx : x = a
      · subst hx
        simp [lookup_updateC]
        omega
      · simp [lookup_updateC, hx]
        exact hax
  | Disconnect a b =>
      simp only [applyEvent] at h
      split at h
      · exact absurd h (by simp)
      · simp at h
        subst h
        have := h0 a
        have hax := h0 x
        by_cases hx : x = a
        · subst hx
          simp [lookup_updateC]
          omega
        · simp [lookup_updateC, hx]
          exact hax

theorem procList_rootCount_nonneg (E : List Event) : ∀ (s s1 : CState),
    (∀ x, 0 ≤ (lookupC s.heap x).gcRootCount) →
    procList s E = some s1 → ∀ x, 0 ≤ (lookupC s1.heap x).gcRootCount := by
  induction E with
  | nil =>
      intro s s1 h0 h
      simp [procList] at h
      subst h
      exact h0
  | cons e rest ih =>
      intro s s1 h0 h
      simp only [procList] at h
      cases ha : applyEvent { s with graphChanged := true } e with
      | none => rw [ha] at h; exact absurd h (by simp)
      | some t =>
          rw [ha] at h
          exact ih t s1
            (applyEvent_rootCount_nonneg { s with graphChanged := true } t e h0 ha) h

/-- C7: under the handle protocol precondition that in every prefix of
the replayed event list each RemoveRoot(a) is matched by a prior
AddRoot(a), and starting from a mirror with nonnegative root counts:
replaying RemoveRoot decrements the targets root count and aborts
exactly when the decremented count would be negative, and after any
completed replay every object (in particular every object in the
registry) has nonnegative root count. -/
theorem removeRoot_nonneg_replay (s : CState) (E : List Event)
    (h0 : ∀ p ∈ s.heap, 0 ≤ p.2.gcRootCount)
    (hm : ∀ a n, ((E.take n).count (Event.RemoveRoot a))
        ≤ ((E.take n).count (Event.AddRoot a))) :
    (∀ t : CState, ∀ a,
      (applyEvent t (.RemoveRoot a) = none ↔ (lookupC t.heap a).gcRootCount - 1 < 0)) ∧
    (∀ t t1 : CState, ∀ a, applyEvent t (.RemoveRoot a) = some t1 →
      (lookupC t1.heap a).gcRootCount = (lookupC t.heap a).gcRootCount - 1) ∧
    (∀ s1, procList s E = some s1 → ∀ x, 0 ≤ (lookupC s1.heap x).gcRootCount) := by
  refine ⟨?_, ?_, ?_⟩
  · intro t a
    by_cases hc : (lookupC t.heap a).gcRootCount - 1 < 0
    · simp [applyEvent, hc]
    · simp [applyEvent, hc]
  · intro t t1 a h
    simp only [applyEvent] at h
    split at h
    · exact absurd h (by simp)
    · simp at h
      subst h
      simp [lookup_updateC]
  · intro s1 h
    exact procList_rootCount_nonneg E s s1 (rootCount_lookup_nonneg s.heap h0) h

/-- Witness for C7 at concrete inputs, using the state s7 where object
3 has root count 0 and object 4 has root count 2. -/
theorem removeRoot_nonneg_replay_witness :
    applyEvent s7 (.RemoveRoot 3) = none ∧
    (lookupC s7b.heap 4).gcRootCount = (lookupC s7.heap 4).gcRootCount - 1 ∧
    0 ≤ (lookupC s7.heap 9).gcRootCount :=
  have T := removeRoot_nonneg_replay s7 [] (by decide) (by intro a n; simp)
  ⟨(T.1 s7 3).mpr (by decide),
   T.2.1 s7 s7b 4 rfl,
   T.2.2 s7 rfl 9⟩

/-! Claim C8: batching invariance of replay. -/

theorem PE_enqueue (s : CState) (E : List Event) (hq : s.queue = []) :
    ProcessEvents (enqueueAll s E) = procList s E := by
  have hX : ({ enqueueAll s E with queue := [] } : CState) = s := by
    cases s
    simp_all [enqueueAll]
  show procList { enqueueAll s E with queue := [] } (enqueueAll s E).queue = procList s E
  rw [hX]
  show procList s (s.queue ++ E) = procList s E
  rw [hq, List.nil_append]

/-- C8: splitting an event stream across any number of ProcessEvents
calls yields exactly the same mirror state (registry, edges, root
counts, stamps, dirty flag, or the same assertion failure) as applying
the whole stream in one call, as long as Collect does not intervene. -/
theorem processEvents_batching (chunks : List (List Event)) :
    ∀ s : CState, s.queue = [] →
      runPE s chunks = ProcessEvents (enqueueAll s chunks.flatten) := by
  induction chunks with
  | nil =>
      intro s hq
      rw [PE_enqueue s _ hq]
      simp [runPE, procList]
  | cons c cs ih =>
      intro s hq
      show List.foldlM (fun t c => ProcessEvents (enqueueAll t c)) s (c :: cs)
          = ProcessEvents (enqueueAll s (c :: cs).flatten)
      rw [List.foldlM_cons, List.flatten_cons, PE_enqueue s (c ++ cs.flatten) hq,
        procList_append]
      cases hpc : procList s c with
      | none =>
          rw [PE_enqueue s c hq, hpc]
          simp
      | some t =>
          rw [PE_enqueue s c hq, hpc]
          have htq : t.queue = [] := by rw [procList_queue c s t hpc, hq]
          calc (some t).bind (fun t => List.foldlM (fun t c => ProcessEvents (enqueueAll t c)) t cs)
              = runPE t cs := rfl
            _ = ProcessEvents (enqueueAll t cs.flatten) := ih t htq
            _ = procList t cs.flatten := PE_enqueue t _ htq
            _ = (some t).bind (fun t => procList t cs.flatten) := rfl

/-- Witness for C8 at a concrete split. -/
theorem processEvents_batching_witness :
    initState.queue = [] ∧
    runPE initState chunksC8 = ProcessEvents (enqueueAll initState chunksC8.flatten) :=
  ⟨by decide, processEvents_batching chunksC8 initState (by decide)⟩

/-! Claim C9: frame property of ProcessEvents. -/

theorem ProcessEvents_frame_one (s s1 : CState) (h : ProcessEvents s = some s1) :
    s1.destroyed = s.destroyed ∧ (∀ id ∈ s.nodes, id ∈ s1.nodes) ∧
    s1.sequence = s.sequence ∧
    (∀ x, (lookupC s1.heap x).gcSequence = (lookupC s.heap x).gcSequence) := by
  have h1 : procList { s with queue := [] } s.queue = some s1 := h
  exact ⟨procList_destroyed s.queue { s with queue := [] } s1 h1,
    procList_nodes_mono s.queue { s with queue := [] } s1 h1,
    procList_sequence s.queue { s with queue := [] } s1 h1,
    procList_gcSequence s.queue { s with queue := [] } s1 h1⟩

/-- C9: any number of ProcessEvents calls destroys no object and
performs no tracing: the destroyed log is unchanged, every registered
object stays registered (membership can only grow), the sequence
counter is unchanged and no visitation stamp changes - even when root
counts have dropped to zero. -/
theorem processEvents_frame (chunks : List (List Event)) :
    ∀ s s1 : CState, runPE s chunks = some s1 →
      s1.destroyed = s.destroyed ∧ (∀ id ∈ s.nodes, id ∈ s1.nodes) ∧
      s1.sequence = s.sequence ∧
      (∀ x, (lookupC s1.heap x).gcSequence = (lookupC s.heap x).gcSequence) := by
  induction chunks with
  | nil =>
      intro s s1 h
      simp [runPE] at h
      subst h
      exact ⟨rfl, fun id hid => hid, rfl, fun x => rfl⟩
  | cons c cs ih =>
      intro s s1 h
      rw [runPE, List.foldlM_cons] at h
      cases hpc : ProcessEvents (enqueueAll s c) with
      | none => rw [hpc] at h; exact absurd h (by simp)
      | some t =>
          rw [hpc] at h
          obtain ⟨d1, n1, q1, g1⟩ := ProcessEvents_frame_one (enqueueAll s c) t hpc
          obtain ⟨d2, n2, q2, g2⟩ := ih t s1 h
          refine ⟨?_, ?_, ?_, ?_⟩
          · rw [d2]; exact d1
          · intro id hid
            exact n2 id (n1 id hid)
          · rw [q2]; exact q1
          · intro x
            rw [g2 x]; exact g1 x

/-- Witness for C9: root 1 then unroot it across two calls; nothing is
destroyed and object 1 stays registered with its count at zero. -/
theorem processEvents_frame_witness :
    ∃ s1, runPE initState chunksC9 = some s1 ∧
      (s1.destroyed = initState.destroyed ∧ (∀ id ∈ initState.nodes, id ∈ s1.nodes) ∧
       s1.sequence = initState.sequence ∧
       (∀ x, (lookupC s1.heap x).gcSequence = (lookupC initState.heap x).gcSequence)) :=
  ⟨_, rfl, processEvents_frame chunksC9 initState _ rfl⟩

/-! Claim C10: an object never named by a replayed AddRoot is never
registered and never destroyed. -/

theorem Collect_origin (tid : Nat) (s t : CState) (h : Collect tid s = some t) :
    (∀ id ∈ t.nodes, id ∈ s.nodes ∨ Event.AddRoot id ∈ s.queue) ∧
    (∀ id ∈ t.destroyed, id ∈ s.destroyed ∨ id ∈ s.nodes ∨ Event.AddRoot id ∈ s.queue) := by
  unfold Collect at h
  cases hPE : ProcessEvents (collectEnter tid s) with
  | none => rw [hPE] at h; exact absurd h (by simp)
  | some s2 =>
      rw [hPE] at h
      simp only [Option.map_some', Option.some.injEq] at h
      subst h
      have hp : procList { collectEnter tid s with queue := [] }
          (collectEnter tid s).queue = some s2 := hPE
      constructor
      · intro id hid
        have hid2 : id ∈ (sweepPhase (markPhase s2)).nodes := hid
        have hid3 : id ∈ (markPhase s2).nodes := sweepPhase_nodes_sub _ id hid2
        rw [markPhase_nodes] at hid3
        rcases procList_nodes_origin _ _ _ hp id hid3 with h1 | h1
        · left; exact h1
        · right; exact h1
      · intro id hid
        have hid2 : id ∈ (sweepPhase (markPhase s2)).destroyed := hid
        rcases sweepPhase_destroyed_sub _ id hid2 with h1 | h1
        · rw [markPhase_destroyed, procList_destroyed _ _ _ hp] at h1
          left; exact h1
        · rw [markPhase_nodes] at h1
          rcases procList_nodes_origin _ _ _ hp id h1 with h2 | h2
          · right; left; exact h2
          · right; right; exact h2

theorem run_never_rooted (ops : List Op) : ∀ (s s1 : CState) (x : Nat),
    x ∉ s.nodes → x ∉ s.destroyed → Event.AddRoot x ∉ s.queue →
    Op.push (Event.AddRoot x) ∉ ops →
    run s ops = some s1 →
    x ∉ s1.nodes ∧ x ∉ s1.destroyed ∧ Event.AddRoot x ∉ s1.queue := by
  induction ops with
  | nil =>
      intro s s1 x h1 h2 h3 _ h
      simp [run] at h
      subst h
      exact ⟨h1, h2, h3⟩
  | cons op rest ih =>
      intro s s1 x h1 h2 h3 hops h
      rw [run, List.foldlM_cons] at h
      cases hop : runOp s op with
      | none => rw [hop] at h; exact absurd h (by simp)
      | some t =>
          rw [hop] at h
          have hop_ne : op ≠ Op.push (Event.AddRoot x) := by
            intro hc
            exact hops (hc ▸ List.mem_cons_self op rest)
          have hrest : Op.push (Event.AddRoot x) ∉ rest :=
            fun hc => hops (List.mem_cons_of_mem _ hc)
          have ht : x ∉ t.nodes ∧ x ∉ t.destroyed ∧ Event.AddRoot x ∉ t.queue := by
            cases op with
            | push e =>
                simp [runOp] at hop
                subst hop
                refine ⟨h1, h2, ?_⟩
                intro hc
                rcases List.mem_append.mp hc with hc1 | hc1
                · exact h3 hc1
                · have he : e = Event.AddRoot x := (List.mem_singleton.mp hc1).symm
                  exact hop_ne (by rw [he])
            | processEvents =>
                have hp : procList { s with queue := [] } s.queue = some t := hop
                refine ⟨?_, ?_, ?_⟩
                · intro hc
                  rcases procList_nodes_origin _ _ _ hp x hc with hc1 | hc1
                  · exact h1 hc1
                  · exact h3 hc1
                · rw [procList_destroyed _ _ _ hp]
                  exact h2
                · rw [procList_queue _ _ _ hp]
                  simp
            | collect tid =>
                obtain ⟨ho1, ho2⟩ := Collect_origin tid s t hop
                refine ⟨?_, ?_, ?_⟩
                · intro hc
                  rcases ho1 x hc with hc1 | hc1
                  · exact h1 hc1
                  · exact h3 hc1
                · intro hc
                  rcases ho2 x hc with hc1 | hc1 | hc1
                  · exact h2 hc1
                  · exact h1 hc1
                  · exact h3 hc1
                · rw [(Collect_post tid s t hop).1]
                  simp
          exact ih t s1 x ht.1 ht.2.1 ht.2.2 hrest h

/-- C10: an object never named by any replayed AddRoot event is never
inserted into the registry and is never destroyed by the collector,
even if it occurs as a Connect target and becomes unreachable: the
sweep iterates only the registry. -/
theorem never_rooted_never_collected (s : CState) (ops : List Op) (x : Nat)
    (h1 : x ∉ s.nodes) (h2 : x ∉ s.destroyed) (h3 : Event.AddRoot x ∉ s.queue)
    (h4 : Op.push (Event.AddRoot x) ∉ ops)
    (h5 : (run s ops).isSome = true) :
    x ∉ ((run s ops).get h5).nodes ∧ x ∉ ((run s ops).get h5).destroyed := by
  obtain ⟨s1, hs1⟩ := Option.isSome_iff_exists.mp h5
  have hget : (run s ops).get h5 = s1 := by simp [hs1]
  rw [hget]
  obtain ⟨a, b, _⟩ := run_never_rooted ops s s1 x h1 h2 h3 h4 hs1
  exact ⟨a, b⟩

/-- Witness for C10: in the driver run opsC10 the object 2 is a
Connect target, becomes unreachable and is collected-over, yet is
never registered nor destroyed. -/
theorem never_rooted_never_collected_witness :
    2 ∉ initState.nodes ∧ 2 ∉ initState.destroyed ∧
    Event.AddRoot 2 ∉ initState.queue ∧
    Op.push (Event.AddRoot 2) ∉ opsC10 ∧
    ∃ h5 : (run initState opsC10).isSome = true,
      2 ∉ ((run initState opsC10).get h5).nodes ∧
      2 ∉ ((run initState opsC10).get h5).destroyed :=
  have hp : (run initState opsC10).isSome = true := by decide
  ⟨by decide, by decide, by decide, by decide, hp,
   (never_rooted_never_collected initState opsC10 2 (by decide) (by decide)
      (by decide) (by decide) hp).1,
   (never_rooted_never_collected initState opsC10 2 (by decide) (by decide)
      (by decide) (by decide) hp).2⟩

end Collector
